import Mathlib

/-!
Verification of the catalyst expression optimizer.

The development shallowly embeds the C++ sources:
  * `ast.hpp` / `ast.cpp` — the expression data model (`Expr`), evaluation
    (`Expr.Evaluate`), cloning (`Expr.Clone`);
  * `optimizer.cpp` — structural matching (`Optimizer.Match`), the post-order
    flattening helpers, the substitution engine (`ApplyTransformAt`), the
    per-rule traversal (`ApplyTransform`) and the driver (`Optimizer.Optimize`).

Machine integers: the C++ value type is `std::size_t`, modelled as `Nat`
with explicit reduction modulo `2 ^ 64` where the code performs arithmetic
(`BinaryAdditionExpr::Evaluate` adds two `std::size_t` values, which wraps).
Leaf values stored by the C++ program are always below `2 ^ 64`; the
predicate `fitsSizeT` records that typing invariant where a proof needs it.

Failure (assertion failure, `std::bad_variant_access`, vector bounds check,
the `UNREACHABLE` throw) is modelled by `Option`: `none` is an abort.
-/

namespace Catalyst

/-- `std::size_t` arithmetic is modulo `2 ^ 64` (LP64 model). -/
def sizeTMod : Nat := 2 ^ 64

/-- `NumericConstantExpr::Numeric = std::variant<std::size_t, AnyNumber>`:
either a concrete unsigned value or the wildcard marker. -/
inductive Numeric where
  | val : Nat → Numeric
  | anyNumber : Numeric
  deriving DecidableEq

/-- `using Identifier = std::string` — binding names attached to nodes. -/
abbrev Identifier := String

/-- The expression tree of `ast.hpp`: a numeric-constant leaf
(`NumericConstantExpr`: value plus identifier) or a binary-addition node
(`BinaryAdditionExpr`: left child, right child, identifier). -/
inductive Expr where
  | numericConstant : Numeric → Identifier → Expr
  | binaryAddition : Expr → Expr → Identifier → Expr
  deriving DecidableEq

/-- `enum class ExprType` — the node discriminant. -/
inductive ExprType where
  | NUMERIC_CONSTANT
  | BINARY_ADDITION
  deriving DecidableEq

/-- `Expr::Type()` — returns the discriminant of a node. -/
def Expr.exprType : Expr → ExprType
  | .numericConstant _ _ => .NUMERIC_CONSTANT
  | .binaryAddition _ _ _ => .BINARY_ADDITION

/-- `Expr::Evaluate()` from `ast.cpp`.
`NumericConstantExpr::Evaluate` asserts the variant holds a concrete
`std::size_t` (aborting on `AnyNumber`) and returns it;
`BinaryAdditionExpr::Evaluate` returns the `std::size_t` sum of the
recursively evaluated children, which wraps modulo `2 ^ 64`. -/
def Expr.Evaluate : Expr → Option Nat
  | .numericConstant (.val v) _ => some v
  | .numericConstant .anyNumber _ => none
  | .binaryAddition l r _ =>
    match l.Evaluate, r.Evaluate with
    | some x, some y => some ((x + y) % sizeTMod)
    | _, _ => none

/-- `Expr::Clone()` from `ast.cpp`: a leaf is rebuilt from its value and
identifier, an addition node from the cloned children and its identifier. -/
def Expr.Clone : Expr → Expr
  | .numericConstant v id => .numericConstant v id
  | .binaryAddition l r id => .binaryAddition l.Clone r.Clone id

/-- `Optimizer::Match` from `optimizer.cpp`: nodes of different discriminants
never match; two addition nodes match iff both child pairs match; two numeric
nodes with two concrete values match iff the values are equal, and otherwise
(at least one wildcard) always match. Identifiers are never consulted. -/
def Optimizer.Match : Expr → Expr → Bool
  | .binaryAddition pl pr _, .binaryAddition ql qr _ =>
    Optimizer.Match pl ql && Optimizer.Match pr qr
  | .numericConstant v0 _, .numericConstant v1 _ =>
    match v0, v1 with
    | .val a, .val b => a == b
    | _, _ => true
  | _, _ => false

/-- `FlattenExpressionsTo` from `optimizer.cpp`: post-order flattening of the
nodes of a tree (left subtree, right subtree, self; a leaf is a singleton). -/
def FlattenExpressions : Expr → List Expr
  | .binaryAddition l r id =>
    FlattenExpressions l ++ FlattenExpressions r ++ [.binaryAddition l r id]
  | .numericConstant v id => [.numericConstant v id]

/-- `FlattenIdentifiersTo` from `optimizer.cpp`: post-order flattening of the
identifiers carried by the nodes of a tree. -/
def FlattenIdentifiers : Expr → List Identifier
  | .binaryAddition l r id => FlattenIdentifiers l ++ FlattenIdentifiers r ++ [id]
  | .numericConstant _ id => [id]

/-- `Transform` from `optimizer.hpp`: a name, an input pattern and an output
pattern. -/
structure Transform where
  mk ::
  name : String
  input_pattern : Expr
  output_pattern : Expr

/-- `Optimizer::TransformBinaryAdditionWithZeroOnLeft`:
pattern `0 + any("right")`, output `any("right")`. -/
def TransformBinaryAdditionWithZeroOnLeft : Transform :=
  Transform.mk "Left-wise Binary Addition with Zero"
    (.binaryAddition (.numericConstant (.val 0) "")
      (.numericConstant .anyNumber "right") "")
    (.numericConstant .anyNumber "right")

/-- `Optimizer::TransformBinaryAdditionWithZeroOnRight`:
pattern `any("left") + 0`, output `any("left")`. -/
def TransformBinaryAdditionWithZeroOnRight : Transform :=
  Transform.mk "Right-wise Binary Addition with Zero"
    (.binaryAddition (.numericConstant .anyNumber "left")
      (.numericConstant (.val 0) "") "")
    (.numericConstant .anyNumber "left")

/-- `std::find` over the flattened identifier vector followed by
`std::distance`: the index of the first occurrence of `id`, if any. -/
def findIndexOf (id : Identifier) : List Identifier → Option Nat
  | [] => none
  | x :: xs => if x = id then some 0 else (findIndexOf id xs).map (· + 1)

/-- The recursive overload `Optimizer::ApplyTransformAt(pattern, expressions,
identifiers)`: instantiates the output pattern.  An addition node is rebuilt
(with the empty identifier, via the two-argument `BinaryAdditionExpr::Make`);
a concrete numeric leaf is copied verbatim (empty identifier); a wildcard leaf
looks up its identifier in the flattened pattern identifiers (the assert on
`std::find` failing is `none`), indexes the flattened expressions
(`std::vector::at` bounds failure is `none`), and copies that node's value
(the `static_cast` to `NumericConstantExpr` applied to an addition node is
undefined behaviour, modelled as `none`). -/
def ApplyTransformAtPattern (expressions : List Expr)
    (identifiers : List Identifier) : Expr → Option Expr
  | .binaryAddition l r _ =>
    match ApplyTransformAtPattern expressions identifiers l,
          ApplyTransformAtPattern expressions identifiers r with
    | some l', some r' => some (.binaryAddition l' r' "")
    | _, _ => none
  | .numericConstant (.val v) _ => some (.numericConstant (.val v) "")
  | .numericConstant .anyNumber id =>
    match findIndexOf id identifiers with
    | none => none
    | some index =>
      match expressions[index]? with
      | some (.numericConstant v _) => some (.numericConstant v "")
      | _ => none

/-- `Optimizer::ApplyTransformAt(transform, position)`: flatten the matched
subtree's nodes and the input pattern's identifiers, then instantiate the
output pattern against the positional correspondence. -/
def ApplyTransformAt (transform : Transform) (position : Expr) : Option Expr :=
  ApplyTransformAtPattern (FlattenExpressions position)
    (FlattenIdentifiers transform.input_pattern) transform.output_pattern

/-- `Optimizer::ApplyTransform`: at an addition node that matches the input
pattern, replace the whole subtree via `ApplyTransformAt`; at a non-matching
addition node, rebuild from the recursively transformed children (via the
two-argument `BinaryAdditionExpr::Make`, so with the empty identifier); at a
numeric leaf, return a clone. -/
def ApplyTransform (transform : Transform) : Expr → Option Expr
  | .binaryAddition l r id =>
    if Optimizer.Match transform.input_pattern (.binaryAddition l r id) then
      ApplyTransformAt transform (.binaryAddition l r id)
    else
      match ApplyTransform transform l, ApplyTransform transform r with
      | some l', some r' => some (.binaryAddition l' r' "")
      | _, _ => none
  | .numericConstant v id => some ((Expr.numericConstant v id).Clone)

/-- The fixed, ordered rule list built at the top of `Optimizer::Optimize`. -/
def transforms : List Transform :=
  [TransformBinaryAdditionWithZeroOnLeft, TransformBinaryAdditionWithZeroOnRight]

/-- `Optimizer::Optimize`: apply each transform in order, feeding each
transform's result to the next. -/
def Optimizer.Optimize (root : Expr) : Option Expr :=
  List.foldlM (fun current transform => ApplyTransform transform current)
    root transforms

/-- Spec-side predicate: the tree contains a wildcard (`AnyNumber`) leaf. -/
def containsWildcard : Expr → Bool
  | .numericConstant .anyNumber _ => true
  | .numericConstant (.val _) _ => false
  | .binaryAddition l r _ => containsWildcard l || containsWildcard r

/-- Spec-side predicate: every concrete leaf value is a representable
`std::size_t` value (below `2 ^ 64`); an invariant the C++ typing enforces. -/
def fitsSizeT : Expr → Bool
  | .numericConstant (.val v) _ => v < sizeTMod
  | .numericConstant .anyNumber _ => true
  | .binaryAddition l r _ => fitsSizeT l && fitsSizeT r

/-- Spec-side function: the exact, unbounded sum of the concrete numeric leaf
values of a tree. -/
def sumLeaves : Expr → Nat
  | .numericConstant (.val v) _ => v
  | .numericConstant .anyNumber _ => 0
  | .binaryAddition l r _ => sumLeaves l + sumLeaves r

/-- Spec-side predicate: every binary-addition node of the tree carries the
empty identifier. -/
def additionIdsEmpty : Expr → Bool
  | .numericConstant _ _ => true
  | .binaryAddition l r id => id == "" && additionIdsEmpty l && additionIdsEmpty r

/-- Spec-side function: erase every identifier of a tree. -/
def eraseIds : Expr → Expr
  | .numericConstant v _ => .numericConstant v ""
  | .binaryAddition l r _ => .binaryAddition (eraseIds l) (eraseIds r) ""

/-- A step from a tree node to one of its children. -/
inductive Dir where
  | left
  | right
  deriving DecidableEq

/-- Spec-side function: the tree positions (paths from the root) of the nodes
of a tree, in the same post-order as the flattening helpers. -/
def FlattenPositions : Expr → List (List Dir)
  | .binaryAddition l r _ =>
    (FlattenPositions l).map (Dir.left :: ·) ++
      (FlattenPositions r).map (Dir.right :: ·) ++ [[]]
  | .numericConstant _ _ => [[]]

/-!
Heap model for clone independence.

The tree model above identifies structurally equal trees, so it cannot
express the aliasing content of `Expr::Clone` ("no shared child ownership").
The following heap model makes the `unique_ptr` graph explicit: nodes live at
addresses in a heap, child links are addresses, allocation appends to the
heap.  `BinaryAdditionExpr::Clone` / `NumericConstantExpr::Clone` become
`cloneHeap` (children cloned first, then a fresh parent node is allocated),
`Expr::Evaluate` becomes `evalHeap`, and the in-place mutators
`BinaryAdditionExpr::ReplaceLeft` / `ReplaceRight` become
`replaceLeftHeap` / `replaceRightHeap`.
-/

/-- A heap address (the target of a `unique_ptr`). -/
abbrev Addr := Nat

/-- A heap node: the stored fields of `NumericConstantExpr` (value and
identifier) or of `BinaryAdditionExpr` (left child address, right child
address, identifier). -/
inductive Node where
  | num : Numeric → Identifier → Node
  | add : Addr → Addr → Identifier → Node
  deriving DecidableEq

/-- The heap: the address of a node is its index; allocation appends. -/
abbrev Heap := List Node

/-- `Expr::Clone` on the heap, fuelled: a numeric leaf allocates a fresh copy
of its fields; an addition node clones its left child, then its right child,
then allocates a fresh addition node pointing at the two clone roots, keeping
the identifier.  Returns the extended heap and the clone's root address. -/
def cloneHeap : Nat → Heap → Addr → Option (Heap × Addr)
  | 0, _, _ => none
  | fuel + 1, h, a =>
    match h[a]? with
    | some (.num v id) => some (h ++ [.num v id], h.length)
    | some (.add l r id) =>
      match cloneHeap fuel h l with
      | none => none
      | some (h₁, la) =>
        match cloneHeap fuel h₁ r with
        | none => none
        | some (h₂, ra) => some (h₂ ++ [.add la ra id], h₂.length)
    | none => none

/-- `Expr::Evaluate` on the heap, fuelled: a concrete leaf yields its value, a
wildcard leaf aborts, an addition node yields the wrapped `std::size_t` sum of
its children. -/
def evalHeapF : Nat → Heap → Addr → Option Nat
  | 0, _, _ => none
  | fuel + 1, h, a =>
    match h[a]? with
    | some (.num (.val v) _) => some v
    | some (.num .anyNumber _) => none
    | some (.add l r _) =>
      match evalHeapF fuel h l, evalHeapF fuel h r with
      | some x, some y => some ((x + y) % sizeTMod)
      | _, _ => none
    | none => none

/-- Heap evaluation at address `a`: in every heap the program builds, children
sit at strictly smaller addresses than their parent, so fuel `a + 1` always
suffices. -/
def evalHeap (h : Heap) (a : Addr) : Option Nat := evalHeapF (a + 1) h a

/-- `BinaryAdditionExpr::ReplaceLeft`: overwrite the left child pointer of the
addition node at `a` (a no-op address-wise on a numeric node, on which the
C++ method cannot be invoked). -/
def replaceLeftHeap (h : Heap) (a : Addr) (newLeft : Addr) : Heap :=
  match h[a]? with
  | some (.add _ r id) => h.set a (.add newLeft r id)
  | _ => h

/-- `BinaryAdditionExpr::ReplaceRight`: overwrite the right child pointer of
the addition node at `a`. -/
def replaceRightHeap (h : Heap) (a : Addr) (newRight : Addr) : Heap :=
  match h[a]? with
  | some (.add l _ id) => h.set a (.add l newRight id)
  | _ => h

/-- The node graph rooted at address `a` of heap `h` spells out the tree `t`.
Children sit at strictly smaller addresses (true of every heap the program
builds, since children are allocated before their parent). -/
inductive Represents : Heap → Addr → Expr → Prop where
  | num : ∀ {h : Heap} {a : Addr} {v : Numeric} {id : Identifier},
      h[a]? = some (.num v id) → Represents h a (.numericConstant v id)
  | add : ∀ {h : Heap} {a la ra : Addr} {id : Identifier} {l r : Expr},
      h[a]? = some (.add la ra id) → la < a → ra < a →
      Represents h la l → Represents h ra r →
      Represents h a (.binaryAddition l r id)

/-- A concrete heap holding the tree `1 + 2` (leaves at addresses 0 and 1,
root at address 2). -/
def exampleHeap : Heap := [.num (.val 1) "", .num (.val 2) "", .add 0 1 "s"]

/-- The tree represented by `exampleHeap` at address 2. -/
def exampleTree : Expr :=
  .binaryAddition (.numericConstant (.val 1) "") (.numericConstant (.val 2) "") "s"

/-- `exampleHeap` after cloning the tree at address 2: the clone occupies the
fresh addresses 3, 4, 5. -/
def exampleClonedHeap : Heap :=
  exampleHeap ++ [.num (.val 1) "", .num (.val 2) "", .add 3 4 "s"]

/-!
Helper lemmas shared by the claim theorems.
-/

/-- In the tree model, `Expr::Clone` rebuilds an equal tree. -/
lemma Clone_eq (t : Expr) : t.Clone = t := by
  induction t with
  | numericConstant v id => rfl
  | binaryAddition l r id ihl ihr => simp [Expr.Clone, ihl, ihr]

/-- Unfolding the driver loop of `Optimizer::Optimize`: the left-zero
transform runs first, its result feeds the right-zero transform. -/
lemma Optimize_eq (t : Expr) :
    Optimizer.Optimize t =
      (ApplyTransform TransformBinaryAdditionWithZeroOnLeft t).bind
        (ApplyTransform TransformBinaryAdditionWithZeroOnRight) := by
  unfold Optimizer.Optimize transforms
  cases h1 : ApplyTransform TransformBinaryAdditionWithZeroOnLeft t with
  | none => simp [List.foldlM, h1]
  | some t1 =>
    cases h2 : ApplyTransform TransformBinaryAdditionWithZeroOnRight t1 with
    | none => simp [List.foldlM, h1, h2]
    | some t2 => simp [List.foldlM, h1, h2]

/-- C5: for every expression tree `t`, `Evaluate` aborts (hard failure,
modelled as `none`) exactly when `t` contains a wildcard numeric node
anywhere, and returns normally on every wildcard-free tree. -/
theorem evaluate_none_iff_containsWildcard (t : Expr) :
    t.Evaluate = none ↔ containsWildcard t = true := by
  induction t with
  | numericConstant v id => cases v <;> simp [Expr.Evaluate, containsWildcard]
  | binaryAddition l r id ihl ihr =>
    cases hl : l.Evaluate <;> cases hr : r.Evaluate <;>
      rw [hl] at ihl <;> rw [hr] at ihr <;>
      simp [Expr.Evaluate, containsWildcard, hl, hr] <;>
      simp at ihl ihr <;> simp [ihl, ihr]

/-- C4 (counterexample): with 64-bit `std::size_t` arithmetic, evaluating
`(2^64 - 1) + 1` wraps to `0`, which differs from the exact, unbounded sum
`2^64` of the numeric leaves. -/
theorem evaluate_unbounded_sum_counterexample :
    ¬ (Expr.Evaluate (.binaryAddition (.numericConstant (.val (2 ^ 64 - 1)) "")
          (.numericConstant (.val 1) "") "") =
        some (sumLeaves (.binaryAddition (.numericConstant (.val (2 ^ 64 - 1)) "")
          (.numericConstant (.val 1) "") ""))) := by
  decide

/-- C4 (amended): for every wildcard-free tree whose leaf values are
representable `std::size_t` values, `Evaluate` returns the sum of all numeric
leaves reduced modulo `2 ^ 64`; an addition node evaluates to the wrapped sum
of its recursively evaluated children and a concrete leaf to its value. -/
theorem evaluate_eq_sumLeaves_mod (t : Expr)
    (hw : containsWildcard t = false) (hs : fitsSizeT t = true) :
    t.Evaluate = some (sumLeaves t % sizeTMod) := by
  induction t with
  | numericConstant v id =>
    cases v with
    | val n =>
      simp only [fitsSizeT, decide_eq_true_eq] at hs
      simp [Expr.Evaluate, sumLeaves, Nat.mod_eq_of_lt hs]
    | anyNumber => simp [containsWildcard] at hw
  | binaryAddition l r id ihl ihr =>
    simp only [containsWildcard, Bool.or_eq_false_iff] at hw
    simp only [fitsSizeT, Bool.and_eq_true] at hs
    rw [show (Expr.binaryAddition l r id).Evaluate =
          (match l.Evaluate, r.Evaluate with
            | some x, some y => some ((x + y) % sizeTMod)
            | _, _ => none) from rfl,
      ihl hw.1 hs.1, ihr hw.2 hs.2]
    simp [sumLeaves, Nat.add_mod]

/-- C4 witness: a concrete instantiation of `evaluate_eq_sumLeaves_mod`. -/
theorem evaluate_eq_sumLeaves_mod_witness :
    (containsWildcard (.binaryAddition (.numericConstant (.val 2) "")
        (.numericConstant (.val 3) "") "") = false ∧
      fitsSizeT (.binaryAddition (.numericConstant (.val 2) "")
        (.numericConstant (.val 3) "") "") = true) ∧
    Expr.Evaluate (.binaryAddition (.numericConstant (.val 2) "")
        (.numericConstant (.val 3) "") "") =
      some (sumLeaves (.binaryAddition (.numericConstant (.val 2) "")
        (.numericConstant (.val 3) "") "") % sizeTMod) :=
  ⟨⟨by decide, by decide⟩,
    evaluate_eq_sumLeaves_mod _ (by decide) (by decide)⟩

/-- C8: `Optimizer::Match` is symmetric in its two arguments. -/
theorem match_comm (a b : Expr) : Optimizer.Match a b = Optimizer.Match b a := by
  induction a generalizing b with
  | numericConstant v id =>
    cases b with
    | numericConstant w jd =>
      cases v with
      | val n =>
        cases w with
        | val m =>
          simp only [Optimizer.Match]
          rw [Bool.eq_iff_iff]
          simp only [beq_iff_eq]
          exact eq_comm
        | anyNumber => rfl
      | anyNumber => cases w <;> rfl
    | binaryAddition _ _ _ => rfl
  | binaryAddition l r id ihl ihr =>
    cases b with
    | numericConstant _ _ => rfl
    | binaryAddition bl br bid => simp [Optimizer.Match, ihl, ihr]

/-- C10: optimization is the identity on a single concrete numeric leaf,
including its binding name. -/
theorem optimize_leaf_identity (v : Nat) (id : Identifier) :
    Optimizer.Optimize (.numericConstant (.val v) id) =
      some (.numericConstant (.val v) id) := rfl

/-- C2: `Optimize (0 + N)` returns the single numeric leaf `N` (with the empty
identifier), and `Optimize (N + 0)` returns a tree that evaluates to `N`,
for every concrete value `N` and any identifiers on the input nodes. -/
theorem optimize_zero_addition_rules (N : Nat) (i j k : Identifier) :
    Optimizer.Optimize (.binaryAddition (.numericConstant (.val 0) i)
        (.numericConstant (.val N) j) k) =
      some (.numericConstant (.val N) "") ∧
    (Optimizer.Optimize (.binaryAddition (.numericConstant (.val N) i)
        (.numericConstant (.val 0) j) k)).bind Expr.Evaluate = some N := by
  constructor
  · rfl
  · cases N with
    | zero => rfl
    | succ m => rfl

/-- C3: full characterization of `Optimizer::Match`: different discriminants
never match; addition nodes match iff both child pairs match positionally;
numeric nodes match iff either side is a wildcard or both are concrete with
equal values; identifiers never affect the result. -/
theorem match_characterization :
    (∀ p q : Expr, p.exprType ≠ q.exprType → Optimizer.Match p q = false) ∧
    (∀ pl pr ql qr : Expr, ∀ pid qid : Identifier,
      Optimizer.Match (.binaryAddition pl pr pid) (.binaryAddition ql qr qid) =
        (Optimizer.Match pl ql && Optimizer.Match pr qr)) ∧
    (∀ v0 v1 : Numeric, ∀ i0 i1 : Identifier,
      (Optimizer.Match (.numericConstant v0 i0) (.numericConstant v1 i1) = true ↔
        v0 = .anyNumber ∨ v1 = .anyNumber ∨ ∃ n, v0 = .val n ∧ v1 = .val n)) ∧
    (∀ p q : Expr, Optimizer.Match p q = Optimizer.Match (eraseIds p) (eraseIds q)) := by
  refine ⟨?_, ?_, ?_, ?_⟩
  · intro p q h
    cases p <;> cases q
    · exact absurd rfl h
    · rfl
    · rfl
    · exact absurd rfl h
  · intro pl pr ql qr pid qid
    rfl
  · intro v0 v1 i0 i1
    cases v0 <;> cases v1 <;> simp [Optimizer.Match]
    exact eq_comm
  · intro p q
    induction p generalizing q with
    | numericConstant v id =>
      cases q <;> cases v <;> simp [Optimizer.Match, eraseIds]
    | binaryAddition l r id ihl ihr =>
      cases q with
      | numericConstant _ _ => rfl
      | binaryAddition ql qr qid => simp [Optimizer.Match, eraseIds, ihl, ihr]

/-- C3 witness: concrete instantiation of the discriminant clause of
`match_characterization`. -/
theorem match_characterization_witness :
    (Expr.numericConstant (.val 1) "x").exprType ≠
      (Expr.binaryAddition (.numericConstant (.val 1) "")
        (.numericConstant (.val 2) "") "y").exprType ∧
    Optimizer.Match (.numericConstant (.val 1) "x")
      (.binaryAddition (.numericConstant (.val 1) "")
        (.numericConstant (.val 2) "") "y") = false :=
  ⟨by decide, match_characterization.1 _ _ (by decide)⟩

/-- The identifier flattening of a tree has one entry per node position. -/
lemma length_flattenIdentifiers (t : Expr) :
    (FlattenIdentifiers t).length = (FlattenPositions t).length := by
  induction t <;> simp [FlattenIdentifiers, FlattenPositions, *]

/-- The expression flattening of a tree has one entry per node position. -/
lemma length_flattenExpressions (t : Expr) :
    (FlattenExpressions t).length = (FlattenPositions t).length := by
  induction t <;> simp [FlattenExpressions, FlattenPositions, *]

/-- Matching trees have identical post-order position sequences. -/
lemma match_positions_eq (p q : Expr) (h : Optimizer.Match p q = true) :
    FlattenPositions p = FlattenPositions q := by
  induction p generalizing q with
  | numericConstant v id =>
    cases q with
    | numericConstant _ _ => rfl
    | binaryAddition _ _ _ => simp [Optimizer.Match] at h
  | binaryAddition l r id ihl ihr =>
    cases q with
    | numericConstant _ _ => simp [Optimizer.Match] at h
    | binaryAddition ql qr qid =>
      simp only [Optimizer.Match, Bool.and_eq_true] at h
      simp [FlattenPositions, ihl ql h.1, ihr qr h.2]

/-- C6: when `Match p q` holds, the post-order flattened identifier sequence
of the pattern and the post-order flattened node sequence of the query have
equal length, and the entry at each index of either sequence sits at the same
tree position (the position sequences coincide index by index). -/
theorem match_flatten_correspondence (p q : Expr)
    (h : Optimizer.Match p q = true) :
    (FlattenIdentifiers p).length = (FlattenExpressions q).length ∧
    FlattenPositions p = FlattenPositions q ∧
    (FlattenIdentifiers p).length = (FlattenPositions p).length ∧
    (FlattenExpressions q).length = (FlattenPositions q).length := by
  have hpos := match_positions_eq p q h
  refine ⟨?_, hpos, length_flattenIdentifiers p, length_flattenExpressions q⟩
  rw [length_flattenIdentifiers p, length_flattenExpressions q, hpos]

/-- C6 witness: the left-zero rule pattern matched against the query `0 + 5`. -/
theorem match_flatten_correspondence_witness :
    Optimizer.Match
      (.binaryAddition (.numericConstant (.val 0) "")
        (.numericConstant .anyNumber "right") "")
      (.binaryAddition (.numericConstant (.val 0) "a")
        (.numericConstant (.val 5) "b") "c") = true ∧
    (FlattenIdentifiers (.binaryAddition (.numericConstant (.val 0) "")
        (.numericConstant .anyNumber "right") "")).length =
      (FlattenExpressions (.binaryAddition (.numericConstant (.val 0) "a")
        (.numericConstant (.val 5) "b") "c")).length :=
  ⟨by decide, (match_flatten_correspondence _ _ (by decide)).1⟩

/-- A single pass of the left-zero transform succeeds on every wildcard-free
tree with representable leaves and preserves evaluation, wildcard-freeness
and leaf bounds. -/
lemma applyTransform_left_spec (t : Expr) (hw : containsWildcard t = false)
    (hs : fitsSizeT t = true) :
    ∃ t', ApplyTransform TransformBinaryAdditionWithZeroOnLeft t = some t' ∧
      t'.Evaluate = t.Evaluate ∧ containsWildcard t' = false ∧
      fitsSizeT t' = true := by
  induction t with
  | numericConstant v id => exact ⟨.numericConstant v id, rfl, rfl, hw, hs⟩
  | binaryAddition l r id ihl ihr =>
    simp only [containsWildcard, Bool.or_eq_false_iff] at hw
    simp only [fitsSizeT, Bool.and_eq_true] at hs
    cases hm : Optimizer.Match TransformBinaryAdditionWithZeroOnLeft.input_pattern
        (.binaryAddition l r id) with
    | false =>
      obtain ⟨l', hl', el', wl', sl'⟩ := ihl hw.1 hs.1
      obtain ⟨r', hr', er', wr', sr'⟩ := ihr hw.2 hs.2
      refine ⟨.binaryAddition l' r' "", ?_, ?_, ?_, ?_⟩
      · simp [ApplyTransform, hm, hl', hr']
      · simp [Expr.Evaluate, el', er']
      · simp [containsWildcard, wl', wr']
      · simp [fitsSizeT, sl', sr']
    | true =>
      rw [show TransformBinaryAdditionWithZeroOnLeft.input_pattern =
          (.binaryAddition (.numericConstant (.val 0) "")
            (.numericConstant .anyNumber "right") "") from rfl] at hm
      simp only [Optimizer.Match, Bool.and_eq_true] at hm
      obtain ⟨hm1, hm2⟩ := hm
      cases l with
      | binaryAddition _ _ _ => simp [Optimizer.Match] at hm1
      | numericConstant w idl =>
        cases w with
        | anyNumber => simp [containsWildcard] at hw
        | val a =>
          have ha : a = 0 := by
            simp only [Optimizer.Match, beq_iff_eq] at hm1
            exact hm1.symm
          subst ha
          cases r with
          | binaryAddition _ _ _ => simp [Optimizer.Match] at hm2
          | numericConstant w2 idr =>
            cases w2 with
            | anyNumber => simp [containsWildcard] at hw
            | val b =>
              have hb : b < sizeTMod := by
                have h2 := hs.2
                simp only [fitsSizeT, decide_eq_true_eq] at h2
                exact h2
              refine ⟨.numericConstant (.val b) "", rfl, ?_, rfl, ?_⟩
              · simp [Expr.Evaluate, Nat.mod_eq_of_lt hb]
              · simp [fitsSizeT, hb]

/-- A single pass of the right-zero transform succeeds on every wildcard-free
tree with representable leaves and preserves evaluation, wildcard-freeness
and leaf bounds. -/
lemma applyTransform_right_spec (t : Expr) (hw : containsWildcard t = false)
    (hs : fitsSizeT t = true) :
    ∃ t', ApplyTransform TransformBinaryAdditionWithZeroOnRight t = some t' ∧
      t'.Evaluate = t.Evaluate ∧ containsWildcard t' = false ∧
      fitsSizeT t' = true := by
  induction t with
  | numericConstant v id => exact ⟨.numericConstant v id, rfl, rfl, hw, hs⟩
  | binaryAddition l r id ihl ihr =>
    simp only [containsWildcard, Bool.or_eq_false_iff] at hw
    simp only [fitsSizeT, Bool.and_eq_true] at hs
    cases hm : Optimizer.Match TransformBinaryAdditionWithZeroOnRight.input_pattern
        (.binaryAddition l r id) with
    | false =>
      obtain ⟨l', hl', el', wl', sl'⟩ := ihl hw.1 hs.1
      obtain ⟨r', hr', er', wr', sr'⟩ := ihr hw.2 hs.2
      refine ⟨.binaryAddition l' r' "", ?_, ?_, ?_, ?_⟩
      · simp [ApplyTransform, hm, hl', hr']
      · simp [Expr.Evaluate, el', er']
      · simp [containsWildcard, wl', wr']
      · simp [fitsSizeT, sl', sr']
    | true =>
      rw [show TransformBinaryAdditionWithZeroOnRight.input_pattern =
          (.binaryAddition (.numericConstant .anyNumber "left")
            (.numericConstant (.val 0) "") "") from rfl] at hm
      simp only [Optimizer.Match, Bool.and_eq_true] at hm
      obtain ⟨hm1, hm2⟩ := hm
      cases l with
      | binaryAddition _ _ _ => simp [Optimizer.Match] at hm1
      | numericConstant w idl =>
        cases w with
        | anyNumber => simp [containsWildcard] at hw
        | val a =>
          cases r with
          | binaryAddition _ _ _ => simp [Optimizer.Match] at hm2
          | numericConstant w2 idr =>
            cases w2 with
            | anyNumber => simp [containsWildcard] at hw
            | val b =>
              have hb : b = 0 := by
                simp only [Optimizer.Match, beq_iff_eq] at hm2
                exact hm2.symm
              subst hb
              have ha : a < sizeTMod := by
                have h1 := hs.1
                simp only [fitsSizeT, decide_eq_true_eq] at h1
                exact h1
              refine ⟨.numericConstant (.val a) "", rfl, ?_, rfl, ?_⟩
              · simp [Expr.Evaluate, Nat.mod_eq_of_lt ha]
              · simp [fitsSizeT, ha]

/-- C1: for every wildcard-free tree with representable `std::size_t` leaf
values, `Optimize` succeeds and the optimized tree evaluates to the same
result as the input tree. -/
theorem optimize_preserves_evaluation (t : Expr)
    (hw : containsWildcard t = false) (hs : fitsSizeT t = true) :
    (Optimizer.Optimize t).bind Expr.Evaluate = t.Evaluate := by
  obtain ⟨t1, h1, e1, w1, s1⟩ := applyTransform_left_spec t hw hs
  obtain ⟨t2, h2, e2, w2, s2⟩ := applyTransform_right_spec t1 w1 s1
  rw [Optimize_eq, h1]
  simp only [Option.some_bind, h2]
  rw [e2, e1]

/-- C1 witness: the `(0 + 1)` scenario of `main.cpp`. -/
theorem optimize_preserves_evaluation_witness :
    (containsWildcard (.binaryAddition (.numericConstant (.val 0) "")
        (.numericConstant (.val 1) "") "") = false ∧
      fitsSizeT (.binaryAddition (.numericConstant (.val 0) "")
        (.numericConstant (.val 1) "") "") = true) ∧
    (Optimizer.Optimize (.binaryAddition (.numericConstant (.val 0) "")
        (.numericConstant (.val 1) "") "")).bind Expr.Evaluate =
      Expr.Evaluate (.binaryAddition (.numericConstant (.val 0) "")
        (.numericConstant (.val 1) "") "") :=
  ⟨⟨by decide, by decide⟩,
    optimize_preserves_evaluation _ (by decide) (by decide)⟩

/-- Every tree built by the output-pattern instantiation carries only empty
identifiers on its addition nodes. -/
lemma applyTransformAtPattern_ids (es : List Expr) (ids : List Identifier)
    (pat : Expr) : ∀ t', ApplyTransformAtPattern es ids pat = some t' →
      additionIdsEmpty t' = true := by
  induction pat with
  | numericConstant v id =>
    intro t' h
    cases v with
    | val n =>
      simp only [ApplyTransformAtPattern, Option.some.injEq] at h
      subst h; rfl
    | anyNumber =>
      simp only [ApplyTransformAtPattern] at h
      cases hf : findIndexOf id ids with
      | none => simp only [hf] at h; simp at h
      | some idx =>
        simp only [hf] at h
        cases he : es[idx]? with
        | none => simp only [he] at h; simp at h
        | some e =>
          simp only [he] at h
          cases e with
          | numericConstant w _ =>
            simp only [Option.some.injEq] at h
            subst h; rfl
          | binaryAddition _ _ _ => simp at h
  | binaryAddition l r id ihl ihr =>
    intro t' h
    simp only [ApplyTransformAtPattern] at h
    cases hl : ApplyTransformAtPattern es ids l with
    | none => rw [hl] at h; simp at h
    | some l' =>
      rw [hl] at h
      cases hr : ApplyTransformAtPattern es ids r with
      | none => rw [hr] at h; simp at h
      | some r' =>
        rw [hr] at h
        simp only [Option.some.injEq] at h
        subst h
        simp [additionIdsEmpty, ihl l' hl, ihr r' hr]

/-- Every tree produced by a transform pass carries only empty identifiers on
its addition nodes. -/
lemma applyTransform_ids (tr : Transform) (t : Expr) :
    ∀ t', ApplyTransform tr t = some t' → additionIdsEmpty t' = true := by
  induction t with
  | numericConstant v id =>
    intro t' h
    simp only [ApplyTransform, Expr.Clone, Option.some.injEq] at h
    subst h; rfl
  | binaryAddition l r id ihl ihr =>
    intro t' h
    simp only [ApplyTransform] at h
    by_cases hm : Optimizer.Match tr.input_pattern (.binaryAddition l r id) = true
    · rw [if_pos hm] at h
      exact applyTransformAtPattern_ids _ _ _ _ h
    · rw [if_neg hm] at h
      cases hl : ApplyTransform tr l with
      | none => rw [hl] at h; simp at h
      | some l' =>
        rw [hl] at h
        cases hr : ApplyTransform tr r with
        | none => rw [hr] at h; simp at h
        | some r' =>
          rw [hr] at h
          simp only [Option.some.injEq] at h
          subst h
          simp [additionIdsEmpty, ihl l' hl, ihr r' hr]

/-- C9: on every wildcard-free input on which `Optimize` returns, every
binary-addition node of the returned tree carries the empty binding name. -/
theorem optimize_addition_ids_empty (t t' : Expr)
    (_hw : containsWildcard t = false)
    (h : Optimizer.Optimize t = some t') : additionIdsEmpty t' = true := by
  rw [Optimize_eq] at h
  cases h1 : ApplyTransform TransformBinaryAdditionWithZeroOnLeft t with
  | none => rw [h1] at h; simp at h
  | some t1 =>
    rw [h1] at h
    simp only [Option.some_bind] at h
    exact applyTransform_ids _ _ _ h

/-- C9 witness: an input whose root addition carries the binding name
`"root"`; the optimized tree's addition carries the empty name while the
cloned numeric leaves keep theirs. -/
theorem optimize_addition_ids_empty_witness :
    (containsWildcard (.binaryAddition (.numericConstant (.val 1) "a")
        (.numericConstant (.val 2) "b") "root") = false ∧
      Optimizer.Optimize (.binaryAddition (.numericConstant (.val 1) "a")
        (.numericConstant (.val 2) "b") "root") =
        some (.binaryAddition (.numericConstant (.val 1) "a")
          (.numericConstant (.val 2) "b") "")) ∧
    additionIdsEmpty (.binaryAddition (.numericConstant (.val 1) "a")
      (.numericConstant (.val 2) "b") "") = true :=
  ⟨⟨by decide, by decide⟩,
    optimize_addition_ids_empty
      (.binaryAddition (.numericConstant (.val 1) "a")
        (.numericConstant (.val 2) "b") "root")
      (.binaryAddition (.numericConstant (.val 1) "a")
        (.numericConstant (.val 2) "b") "")
      (by decide) (by decide)⟩

/-- An address holding a node is inside the heap. -/
lemma getElem?_some_lt {h : Heap} {a : Addr} {n : Node}
    (hn : h[a]? = some n) : a < h.length := by
  by_contra hlt
  rw [List.getElem?_eq_none (Nat.le_of_not_lt hlt)] at hn
  cases hn

/-- The freshly appended node sits at the old length. -/
lemma getElem?_concat_self (h : Heap) (n : Node) :
    (h ++ [n])[h.length]? = some n := by
  rw [List.getElem?_append_right le_rfl]
  simp

/-- The root of a represented tree is inside the heap. -/
lemma Represents_lt_length {h : Heap} {a : Addr} {t : Expr}
    (hr : Represents h a t) : a < h.length := by
  cases hr with
  | num hn => exact getElem?_some_lt hn
  | add hn _ _ _ _ => exact getElem?_some_lt hn

/-- Representation only reads addresses up to the root: heaps that agree
there represent the same tree. -/
lemma Represents_agree {h h' : Heap} {a : Addr} {t : Expr}
    (hr : Represents h a t) (hag : ∀ i, i ≤ a → h'[i]? = h[i]?) :
    Represents h' a t := by
  induction hr with
  | num hn => exact .num ((hag _ le_rfl).trans hn)
  | add hn hla hra hrl hrr ihl ihr =>
    exact .add ((hag _ le_rfl).trans hn) hla hra
      (ihl fun i hi => hag i (hi.trans (Nat.le_of_lt hla)))
      (ihr fun i hi => hag i (hi.trans (Nat.le_of_lt hra)))

/-- Extending the heap preserves representation. -/
lemma Represents_append {h ext : Heap} {a : Addr} {t : Expr}
    (hr : Represents h a t) : Represents (h ++ ext) a t :=
  Represents_agree hr fun _i hi =>
    List.getElem?_append_left (Nat.lt_of_le_of_lt hi (Represents_lt_length hr))

/-- Overwriting a node strictly above the root preserves representation. -/
lemma Represents_set_high {h : Heap} {a : Addr} {t : Expr}
    (hr : Represents h a t) (b : Addr) (n : Node) (hab : a < b) :
    Represents (h.set b n) a t :=
  Represents_agree hr fun _i hi =>
    List.getElem?_set_ne (Nat.ne_of_gt (Nat.lt_of_le_of_lt hi hab))

/-- Heap evaluation of a represented tree agrees with tree evaluation, for
any sufficient fuel. -/
lemma Represents_eval {h : Heap} {a : Addr} {t : Expr}
    (hr : Represents h a t) : ∀ fuel, a < fuel →
      evalHeapF fuel h a = t.Evaluate := by
  induction hr with
  | num hn =>
    intro fuel hf
    cases fuel with
    | zero => exact absurd hf (Nat.not_lt_zero _)
    | succ f =>
      rename_i v id
      cases v <;> simp [evalHeapF, hn, Expr.Evaluate]
  | add hn hla hra hrl hrr ihl ihr =>
    intro fuel hf
    cases fuel with
    | zero => exact absurd hf (Nat.not_lt_zero _)
    | succ f =>
      rename_i l r
      have hl' := ihl f (Nat.lt_of_lt_of_le hla (Nat.lt_succ_iff.mp hf))
      have hr' := ihr f (Nat.lt_of_lt_of_le hra (Nat.lt_succ_iff.mp hf))
      cases el : l.Evaluate <;> cases er : r.Evaluate <;>
        rw [el] at hl' <;> rw [er] at hr' <;>
        simp [evalHeapF, hn, hl', hr', Expr.Evaluate, el, er]

/-- `cloneHeap` extends the heap, allocates the clone root at a fresh address,
and the clone represents the same tree. -/
lemma cloneHeap_spec (t : Expr) : ∀ (fuel : Nat) (h : Heap) (a : Addr)
    (h' : Heap) (a' : Addr), Represents h a t →
    cloneHeap fuel h a = some (h', a') →
    (∃ ext, h' = h ++ ext) ∧ h.length ≤ a' ∧ a' < h'.length ∧
      Represents h' a' t := by
  induction t with
  | numericConstant v id =>
    intro fuel h a h' a' hr hc
    cases fuel with
    | zero => simp [cloneHeap] at hc
    | succ f =>
      cases hr with
      | num hn =>
        simp only [cloneHeap, hn, Option.some.injEq, Prod.mk.injEq] at hc
        obtain ⟨hh, ha⟩ := hc
        subst hh; subst ha
        refine ⟨⟨[.num v id], rfl⟩, le_rfl, by simp, ?_⟩
        exact .num (getElem?_concat_self h _)
  | binaryAddition l r id ihl ihr =>
    intro fuel h a h' a' hr hc
    cases fuel with
    | zero => simp [cloneHeap] at hc
    | succ f =>
      cases hr with
      | add hn hla hra hrl hrr =>
        simp only [cloneHeap, hn] at hc
        rename_i la ra
        split at hc
        · exact absurd hc (by simp)
        · rename_i h₁ la' hcl
          split at hc
          · exact absurd hc (by simp)
          · rename_i h₂ ra' hcr
            obtain ⟨⟨ext₁, hext₁⟩, hle₁, hlt₁, hrep₁⟩ := ihl f h la h₁ la' hrl hcl
            have hrr₁ : Represents h₁ ra r := by
              rw [hext₁]; exact Represents_append hrr
            obtain ⟨⟨ext₂, hext₂⟩, hle₂, hlt₂, hrep₂⟩ := ihr f h₁ ra h₂ ra' hrr₁ hcr
            simp only [Option.some.injEq, Prod.mk.injEq] at hc
            obtain ⟨hh, ha⟩ := hc
            subst hh; subst ha
            have hlen₁ : h.length ≤ h₁.length := by rw [hext₁]; simp
            have hlen₂ : h₁.length ≤ h₂.length := by rw [hext₂]; simp
            refine ⟨⟨ext₁ ++ ext₂ ++ [.add la' ra' id], by
                rw [hext₂, hext₁]; simp⟩,
              le_trans hlen₁ hlen₂, by simp, ?_⟩
            refine .add (getElem?_concat_self h₂ _)
              (Nat.lt_of_lt_of_le hlt₁ hlen₂) hlt₂ ?_ ?_
            · have hl₂ : Represents h₂ la' l := by
                rw [hext₂]; exact Represents_append hrep₁
              exact Represents_append hl₂
            · exact Represents_append hrep₂

/-- C7: `Clone` builds a fully independent deep copy.  In a heap where
address `a` represents the tree `t`, a successful `cloneHeap` yields a root
`a'` that evaluates to the same result as `t`; and any subsequent
`ReplaceLeft` / `ReplaceRight` mutation at an address in the freshly
allocated region (any `b` at or beyond the original heap's length, which
covers every node of the clone) leaves the original tree's structure and
evaluated result unchanged. -/
theorem clone_independence (h : Heap) (a : Addr) (t : Expr) (fuel : Nat)
    (h' : Heap) (a' : Addr) (b c : Addr)
    (hrep : Represents h a t)
    (hclone : cloneHeap fuel h a = some (h', a'))
    (hb : h.length ≤ b) :
    evalHeap h a = t.Evaluate ∧
    evalHeap h' a' = t.Evaluate ∧
    Represents (replaceLeftHeap h' b c) a t ∧
    evalHeap (replaceLeftHeap h' b c) a = t.Evaluate ∧
    Represents (replaceRightHeap h' b c) a t ∧
    evalHeap (replaceRightHeap h' b c) a = t.Evaluate := by
  obtain ⟨⟨ext, hext⟩, hle, hlt, hrep'⟩ :=
    cloneHeap_spec t fuel h a h' a' hrep hclone
  have ha : a < h.length := Represents_lt_length hrep
  have hab : a < b := Nat.lt_of_lt_of_le ha hb
  have hreph' : Represents h' a t := by
    rw [hext]; exact Represents_append hrep
  have frameL : Represents (replaceLeftHeap h' b c) a t := by
    rcases hb2 : h'[b]? with _ | n
    · simpa only [replaceLeftHeap, hb2] using hreph'
    · cases n with
      | num _ _ => simpa only [replaceLeftHeap, hb2] using hreph'
      | add _ _ _ =>
        simp only [replaceLeftHeap, hb2]
        exact Represents_set_high hreph' b _ hab
  have frameR : Represents (replaceRightHeap h' b c) a t := by
    rcases hb2 : h'[b]? with _ | n
    · simpa only [replaceRightHeap, hb2] using hreph'
    · cases n with
      | num _ _ => simpa only [replaceRightHeap, hb2] using hreph'
      | add _ _ _ =>
        simp only [replaceRightHeap, hb2]
        exact Represents_set_high hreph' b _ hab
  exact ⟨Represents_eval hrep _ (Nat.lt_succ_self a),
    Represents_eval hrep' _ (Nat.lt_succ_self a'),
    frameL, Represents_eval frameL _ (Nat.lt_succ_self a),
    frameR, Represents_eval frameR _ (Nat.lt_succ_self a)⟩

/-- C7 witness: cloning `1 + 2` out of `exampleHeap` and then redirecting the
clone root's left child (address 5) leaves the original tree at address 2
intact. -/
theorem clone_independence_witness :
    (Represents exampleHeap 2 exampleTree ∧
      cloneHeap 3 exampleHeap 2 = some (exampleClonedHeap, 5) ∧
      exampleHeap.length ≤ 5) ∧
    (evalHeap exampleHeap 2 = exampleTree.Evaluate ∧
      evalHeap exampleClonedHeap 5 = exampleTree.Evaluate ∧
      Represents (replaceLeftHeap exampleClonedHeap 5 1) 2 exampleTree ∧
      evalHeap (replaceLeftHeap exampleClonedHeap 5 1) 2 = exampleTree.Evaluate ∧
      Represents (replaceRightHeap exampleClonedHeap 5 1) 2 exampleTree ∧
      evalHeap (replaceRightHeap exampleClonedHeap 5 1) 2 = exampleTree.Evaluate) :=
  have hrep : Represents exampleHeap 2 exampleTree :=
    .add rfl (by decide) (by decide) (.num rfl) (.num rfl)
  ⟨⟨hrep, by decide, by decide⟩,
    clone_independence exampleHeap 2 exampleTree 3 exampleClonedHeap 5 5 1
      hrep (by decide) (by decide)⟩

end Catalyst
